import Mathlib

/-!
Shallow embedding of the WebRTC signaling relay of `src/main.py`
(the module-level `rooms` dict and the `signaling_ws` handler, lines
151-174) and of `generate_meeting_code` (lines 126-127).

Connections are abstracted as natural-number handles.  The global
`rooms` dict is modelled as an association list from room code to the
membership set, the set itself as a duplicate-free list.  The handler's
exception flow (`try` / `except WebSocketDisconnect` / `finally`) is made
explicit with an `Except` value; which recipients' `send_text` raises is
abstracted by a `fails` predicate.
-/

/-- A websocket connection handle (opaque to the relay). -/
abbrev Conn := Nat

/-- The module-level `rooms` dict (line 151): room code ↦ set of connections. -/
abbrev Registry := List (String × List Conn)

namespace Registry

/-- Dict lookup: `rooms.get(code)`, and `code in rooms` when testing `isSome`. -/
def find (rooms : Registry) (code : String) : Option (List Conn) :=
  match rooms with
  | [] => none
  | p :: rest => if p.1 = code then some p.2 else find rest code

end Registry

/-- Python `set.add`: add the element if absent (set semantics on a
duplicate-free list). -/
def setAdd (s : List Conn) (ws : Conn) : List Conn :=
  if ws ∈ s then s else s ++ [ws]

/-- Python `set.discard`: remove the element if present, no error if absent. -/
def setDiscard (s : List Conn) (ws : Conn) : List Conn :=
  s.filter (fun x => x != ws)

/-- Rebind the set at `code`, leaving other rooms untouched (models the
in-place mutation `rooms[code].add(...)` / `.discard(...)`). -/
def updAt (code : String) (f : List Conn → List Conn) (rooms : Registry) : Registry :=
  rooms.map (fun p => if p.1 = code then (p.1, f p.2) else p)

/-- Lines 156-158: `if code not in rooms: rooms[code] = set()` followed by
`rooms[code].add(websocket)`. -/
def join (rooms : Registry) (code : String) (ws : Conn) : Registry :=
  updAt code (fun s => setAdd s ws)
    (if (Registry.find rooms code).isNone then rooms ++ [(code, [])] else rooms)

/-- `rooms.get(code, [])` (line 163): the current members, `[]` when the room
is absent. -/
def members (rooms : Registry) (code : String) : List Conn :=
  (Registry.find rooms code).getD []

/-- `code in rooms`: whether the registry has an entry for `code`. -/
def roomExists (rooms : Registry) (code : String) : Bool :=
  (Registry.find rooms code).isSome

/-- Lines 171-174, the `finally` block: `rooms.get(code, set()).discard(websocket)`
then `if not rooms.get(code): rooms.pop(code, None)`. -/
def leave (rooms : Registry) (code : String) (ws : Conn) : Registry :=
  let rooms1 := updAt code (fun s => setDiscard s ws) rooms
  if members rooms1 code = [] then rooms1.filter (fun p => p.1 != code) else rooms1

/-- A Python exception, as far as the handler distinguishes them. -/
inductive PyExc
  | wsDisconnect
  | readError
  | sendError
deriving DecidableEq, Repr

/-- `await ws.send_text(data)` (line 166): may raise; which recipients fail is
abstracted by `fails`. -/
def send_text (fails : Conn → Bool) (ws : Conn) (data : String) : Except PyExc Unit :=
  if fails ws then Except.error PyExc.sendError else Except.ok ()

/-- One iteration of the loop over `list(rooms.get(code, []))` (lines 163-168):
skip the sender (`if ws is not websocket`), then `try: await ws.send_text(data)
except Exception: pass`.  `acc` holds the successful deliveries so far. -/
def sendStep (fails : Conn → Bool) (sender : Conn) (data : String)
    (acc : List (Conn × String)) (ws : Conn) : List (Conn × String) :=
  if ws = sender then acc
  else
    match send_text fails ws data with
    | Except.ok _ => acc ++ [(ws, data)]
    | Except.error _ => acc

/-- The broadcast loop of lines 163-168 over a snapshot of targets, returning
the successful deliveries in iteration order. -/
def broadcastTo (fails : Conn → Bool) (sender : Conn) (data : String)
    (targets : List Conn) : List (Conn × String) :=
  targets.foldl (sendStep fails sender data) []

/-- Lines 163-168: broadcast `data` from `sender` to every other member of
`code`'s room. -/
def broadcast (rooms : Registry) (code : String) (sender : Conn) (data : String)
    (fails : Conn → Bool) : List (Conn × String) :=
  broadcastTo fails sender data (members rooms code)

/-- How the receive loop of lines 160-168 ends: either the peer closed the
socket (`receive_text` raises `WebSocketDisconnect`) or the read failed with
some other error. -/
inductive TermKind
  | disconnect
  | readError
deriving DecidableEq, Repr

/-- Lines 154-174, `signaling_ws` after `accept`: join the room, relay each
received message in `msgs` to the other members, end the loop with `term`.
`except WebSocketDisconnect: pass` swallows a clean close; the `finally`
block leaves the room on every path.  Returns the final registry, the
deliveries made, and the exception (if any) escaping the handler. -/
def signaling_ws (rooms0 : Registry) (code : String) (ws : Conn) (msgs : List String)
    (term : TermKind) (fails : Conn → Bool) :
    Registry × List (Conn × String) × Except PyExc Unit :=
  let rooms1 := join rooms0 code ws
  let deliveries := msgs.foldl (fun acc m => acc ++ broadcast rooms1 code ws m fails) []
  let loopExc : Except PyExc Unit :=
    match term with
    | TermKind.disconnect => Except.error PyExc.wsDisconnect
    | TermKind.readError => Except.error PyExc.readError
  let handled : Except PyExc Unit :=
    match loopExc with
    | Except.error PyExc.wsDisconnect => Except.ok ()
    | e => e
  let rooms2 := leave rooms1 code ws
  (rooms2, deliveries, handled)

/-- A membership step on the registry: the join step (lines 156-158) or the
leave step (lines 171-174) of some handler. -/
inductive Op
  | join (code : String) (ws : Conn)
  | leave (code : String) (ws : Conn)
deriving DecidableEq, Repr

/-- Run one membership step. -/
def applyOp (rooms : Registry) : Op → Registry
  | Op.join code ws => join rooms code ws
  | Op.leave code ws => leave rooms code ws

/-- Run a sequence of membership steps. -/
def applyOps (rooms : Registry) (ops : List Op) : Registry :=
  ops.foldl applyOp rooms

/-- Whether the operation is a join on room `code`. -/
def isJoinOn (code : String) : Op → Bool
  | Op.join c _ => c == code
  | Op.leave _ _ => false

/-- Whether the operation is a leave on room `code`. -/
def isLeaveOn (code : String) : Op → Bool
  | Op.leave c _ => c == code
  | Op.join _ _ => false

/-- The number of joins on room `code` in the sequence. -/
def joinCount (code : String) (ops : List Op) : Nat :=
  (ops.filter (isJoinOn code)).length

/-- The number of leaves on room `code` in the sequence. -/
def leaveCount (code : String) (ops : List Op) : Nat :=
  (ops.filter (isLeaveOn code)).length

/-- The room's member count. -/
def memberCount (rooms : Registry) (code : String) : Nat :=
  (members rooms code).length

/-- The sequence is effective for room `code`: every join on the room is of a
connection not currently a member, every leave on the room is of a current
member. -/
def effectiveOps (code : String) : Registry → List Op → Bool
  | _, [] => true
  | rooms, Op.join c w :: ops =>
      (c != code || !(members rooms code).contains w) &&
        effectiveOps code (applyOp rooms (Op.join c w)) ops
  | rooms, Op.leave c w :: ops =>
      (c != code || (members rooms code).contains w) &&
        effectiveOps code (applyOp rooms (Op.leave c w)) ops

/-- The population `string.ascii_uppercase + string.digits` of line 127. -/
def codeAlphabet : List Char := "ABCDEFGHIJKLMNOPQRSTUVWXYZ0123456789".data

/-- Lines 126-127: `"".join(choices(string.ascii_uppercase + string.digits, k=8))`.
The random source behind `choices` is abstracted as `r`: the i-th draw picks
element `r i mod 36` of the population. -/
def generate_meeting_code (r : Nat → Nat) : String :=
  String.mk ((List.range 8).map (fun i => codeAlphabet.getD (r i % codeAlphabet.length) 'A'))

/-- The payloads delivered to connection `w`, in delivery order. -/
def deliveredTo (w : Conn) (ds : List (Conn × String)) : List String :=
  (ds.filter (fun d => d.1 == w)).map Prod.snd

/-! ### Registry lookup lemmas -/

theorem Registry.find_append_none {rooms : Registry} {code : String}
    (h : Registry.find rooms code = none) (t : Registry) :
    Registry.find (rooms ++ t) code = Registry.find t code := by
  induction rooms with
  | nil => rfl
  | cons p rest ih =>
    rw [Registry.find] at h
    by_cases hp : p.1 = code
    · rw [if_pos hp] at h; cases h
    · rw [if_neg hp] at h
      show Registry.find (p :: (rest ++ t)) code = _
      rw [Registry.find, if_neg hp]
      exact ih h

theorem Registry.find_append_some {rooms : Registry} {code : String} {s : List Conn}
    (h : Registry.find rooms code = some s) (t : Registry) :
    Registry.find (rooms ++ t) code = some s := by
  induction rooms with
  | nil => cases h
  | cons p rest ih =>
    rw [Registry.find] at h
    show Registry.find (p :: (rest ++ t)) code = _
    rw [Registry.find]
    by_cases hp : p.1 = code
    · rw [if_pos hp] at h ⊢; exact h
    · rw [if_neg hp] at h ⊢; exact ih h

theorem Registry.find_updAt (c : String) (f : List Conn → List Conn)
    (rooms : Registry) (code : String) :
    Registry.find (updAt c f rooms) code =
      if c = code then (Registry.find rooms code).map f else Registry.find rooms code := by
  induction rooms with
  | nil =>
    simp only [updAt, List.map_nil, Registry.find]
    split <;> rfl
  | cons p rest ih =>
    simp only [updAt, List.map_cons] at ih ⊢
    by_cases hpc : p.1 = c
    · by_cases hcc : c = code
      · subst hcc
        rw [if_pos hpc, Registry.find, Registry.find, if_pos hpc, if_pos hpc]
        simp [ih]
      · have hpcode : ¬p.1 = code := fun h => hcc (hpc ▸ h)
        rw [if_pos hpc, Registry.find, Registry.find, if_neg hpcode, if_neg hpcode, ih,
          if_neg hcc]
    · rw [if_neg hpc, Registry.find, Registry.find]
      by_cases hpcode : p.1 = code
      · have hcc : ¬c = code := fun h => hpc (h ▸ hpcode)
        rw [if_pos hpcode, if_pos hpcode, if_neg hcc]
      · rw [if_neg hpcode, if_neg hpcode, ih]

theorem Registry.find_filter_ne (rooms : Registry) (c code : String) :
    Registry.find (rooms.filter (fun p => p.1 != c)) code =
      if c = code then none else Registry.find rooms code := by
  induction rooms with
  | nil =>
    simp only [List.filter_nil, Registry.find]
    split <;> rfl
  | cons p rest ih =>
    by_cases hpc : p.1 = c
    · rw [List.filter_cons_of_neg (by simp [hpc]), ih, Registry.find]
      by_cases hcc : c = code
      · rw [if_pos hcc, if_pos hcc]
      · have hpcode : ¬p.1 = code := fun h => hcc (hpc ▸ h)
        rw [if_neg hcc, if_neg hcc, if_neg hpcode]
    · rw [List.filter_cons_of_pos (by simp [hpc]), Registry.find, Registry.find]
      by_cases hpcode : p.1 = code
      · have hcc : ¬c = code := fun h => hpc (h ▸ hpcode)
        rw [if_pos hpcode, if_pos hpcode, if_neg hcc]
      · rw [if_neg hpcode, if_neg hpcode, ih]

theorem Registry.find_none_iff (rooms : Registry) (code : String) :
    Registry.find rooms code = none ↔ code ∉ rooms.map Prod.fst := by
  induction rooms with
  | nil => simp [Registry.find]
  | cons p rest ih =>
    rw [Registry.find]
    by_cases hp : p.1 = code
    · simp [hp]
    · simp only [if_neg hp, List.map_cons, List.mem_cons, ih]
      constructor
      · intro h hmem
        rcases hmem with h1 | h2
        · exact hp h1.symm
        · exact h h2
      · intro h hmem
        exact h (Or.inr hmem)

theorem Registry.find_mem {rooms : Registry} {code : String} {s : List Conn}
    (h : Registry.find rooms code = some s) : (code, s) ∈ rooms := by
  induction rooms with
  | nil => cases h
  | cons p rest ih =>
    rw [Registry.find] at h
    by_cases hp : p.1 = code
    · rw [if_pos hp] at h
      cases h
      have hpp : (code, p.2) = p := by
        cases p
        simp only at hp
        rw [hp]
      rw [hpp]
      exact List.mem_cons_self _ _
    · rw [if_neg hp] at h
      exact List.mem_cons_of_mem _ (ih h)

theorem Registry.find_eq_of_mem {rooms : Registry} {q : String × List Conn}
    (hkeys : (rooms.map Prod.fst).Nodup) (hq : q ∈ rooms) :
    Registry.find rooms q.1 = some q.2 := by
  induction rooms with
  | nil => cases hq
  | cons p rest ih =>
    rw [List.map_cons, List.nodup_cons] at hkeys
    rcases List.mem_cons.mp hq with h | h
    · subst h
      rw [Registry.find, if_pos rfl]
    · have hne : ¬p.1 = q.1 := by
        intro hcontra
        exact hkeys.1 (hcontra ▸ List.mem_map_of_mem Prod.fst h)
      rw [Registry.find, if_neg hne]
      exact ih hkeys.2 h

/-! ### Members after join and leave -/

theorem find_join_self (rooms : Registry) (code : String) (ws : Conn) :
    Registry.find (join rooms code ws) code = some (setAdd (members rooms code) ws) := by
  unfold join
  cases hf : Registry.find rooms code with
  | none =>
    simp only [hf, Option.isNone_none, if_true]
    rw [Registry.find_updAt, if_pos rfl, Registry.find_append_none hf]
    simp [Registry.find, members, hf]
  | some s =>
    simp only [hf, Option.isNone_some, Bool.false_eq_true, if_false]
    rw [Registry.find_updAt, if_pos rfl, hf]
    simp [members, hf]

theorem members_join_self (rooms : Registry) (code : String) (ws : Conn) :
    members (join rooms code ws) code = setAdd (members rooms code) ws := by
  rw [members, find_join_self]
  rfl

theorem members_join_other {c code : String} (h : c ≠ code)
    (rooms : Registry) (ws : Conn) :
    members (join rooms c ws) code = members rooms code := by
  unfold join members
  rw [Registry.find_updAt, if_neg h]
  cases hf : Registry.find rooms c with
  | none =>
    simp only [hf, Option.isNone_none, if_true]
    cases hg : Registry.find rooms code with
    | none => rw [Registry.find_append_none hg]; simp [Registry.find, h]
    | some s => rw [Registry.find_append_some hg]
  | some s => simp [hf]

theorem members_leave_self (rooms : Registry) (code : String) (ws : Conn) :
    members (leave rooms code ws) code = setDiscard (members rooms code) ws := by
  unfold leave
  by_cases h : members (updAt code (fun s => setDiscard s ws) rooms) code = []
  · rw [if_pos h]
    rw [members, Registry.find_filter_ne, if_pos rfl]
    rw [members, Registry.find_updAt, if_pos rfl] at h
    cases hf : Registry.find rooms code with
    | none => simp [members, hf, setDiscard]
    | some s =>
      rw [hf] at h
      simp at h
      simp [members, hf, h]
  · rw [if_neg h]
    rw [members, Registry.find_updAt, if_pos rfl]
    cases hf : Registry.find rooms code with
    | none => simp [members, hf, setDiscard]
    | some s => simp [members, hf]

theorem members_leave_other {c code : String} (h : c ≠ code)
    (rooms : Registry) (ws : Conn) :
    members (leave rooms c ws) code = members rooms code := by
  unfold leave
  by_cases hp : members (updAt c (fun s => setDiscard s ws) rooms) c = []
  · rw [if_pos hp, members, Registry.find_filter_ne, if_neg h, Registry.find_updAt, if_neg h]
    rfl
  · rw [if_neg hp, members, Registry.find_updAt, if_neg h]
    rfl

/-! ### The broadcast loop -/

theorem sendStep_eq (fails : Conn → Bool) (sender : Conn) (data : String)
    (acc : List (Conn × String)) (ws : Conn) :
    sendStep fails sender data acc ws =
      acc ++ (if ws != sender && !fails ws then [(ws, data)] else []) := by
  unfold sendStep send_text
  by_cases h1 : ws = sender
  · simp [h1]
  · cases h2 : fails ws <;> simp [h1, h2]

theorem foldl_sendStep (fails : Conn → Bool) (sender : Conn) (data : String)
    (ts : List Conn) (acc : List (Conn × String)) :
    ts.foldl (sendStep fails sender data) acc =
      acc ++ ts.foldl (sendStep fails sender data) [] := by
  induction ts generalizing acc with
  | nil => simp
  | cons a ts ih =>
    rw [List.foldl_cons, List.foldl_cons, ih (sendStep fails sender data acc a),
      ih (sendStep fails sender data [] a), sendStep_eq, sendStep_eq]
    simp

theorem broadcastTo_eq (fails : Conn → Bool) (sender : Conn) (data : String)
    (ts : List Conn) :
    broadcastTo fails sender data ts =
      (ts.filter (fun w => w != sender && !fails w)).map (fun w => (w, data)) := by
  induction ts with
  | nil => rfl
  | cons a ts ih =>
    unfold broadcastTo at ih ⊢
    rw [List.foldl_cons, foldl_sendStep, ih, sendStep_eq]
    cases h : (a != sender && !fails a) <;> simp [List.filter_cons, h]

theorem broadcast_eq (rooms : Registry) (code : String) (sender : Conn)
    (data : String) (fails : Conn → Bool) :
    broadcast rooms code sender data fails =
      ((members rooms code).filter (fun w => w != sender && !fails w)).map
        (fun w => (w, data)) := by
  rw [broadcast, broadcastTo_eq]

/-! ### Set-on-list lemmas -/

theorem setAdd_ne_nil (s : List Conn) (ws : Conn) : setAdd s ws ≠ [] := by
  unfold setAdd
  by_cases h : ws ∈ s
  · rw [if_pos h]
    intro hnil
    rw [hnil] at h
    cases h
  · rw [if_neg h]
    simp

theorem mem_setAdd (s : List Conn) (ws : Conn) : ws ∈ setAdd s ws := by
  unfold setAdd
  by_cases h : ws ∈ s
  · rw [if_pos h]; exact h
  · rw [if_neg h]; simp

theorem setAdd_setAdd (s : List Conn) (ws : Conn) :
    setAdd (setAdd s ws) ws = setAdd s ws := by
  unfold setAdd
  by_cases h : ws ∈ s
  · rw [if_pos h, if_pos h]
  · rw [if_neg h, if_pos (by simp)]

theorem setAdd_nodup {s : List Conn} (h : s.Nodup) (ws : Conn) :
    (setAdd s ws).Nodup := by
  unfold setAdd
  by_cases hm : ws ∈ s
  · rw [if_pos hm]; exact h
  · rw [if_neg hm]
    simp [List.nodup_append, h, hm]

theorem setDiscard_nodup {s : List Conn} (h : s.Nodup) (ws : Conn) :
    (setDiscard s ws).Nodup :=
  h.filter _

theorem not_mem_setDiscard (s : List Conn) (ws : Conn) : ws ∉ setDiscard s ws := by
  simp [setDiscard]

theorem setAdd_length_of_not_mem {s : List Conn} {ws : Conn} (h : ws ∉ s) :
    (setAdd s ws).length = s.length + 1 := by
  rw [setAdd, if_neg h]
  simp

theorem setDiscard_length_of_mem {s : List Conn} {ws : Conn}
    (hnd : s.Nodup) (h : ws ∈ s) :
    (setDiscard s ws).length + 1 = s.length := by
  induction s with
  | nil => cases h
  | cons a s ih =>
    rw [List.nodup_cons] at hnd
    by_cases ha : a = ws
    · subst ha
      rw [setDiscard, List.filter_cons_of_neg (by simp)]
      have hfil : s.filter (fun x => x != a) = s :=
        List.filter_eq_self.mpr (fun x hx => by
          simp only [bne_iff_ne, ne_eq, decide_eq_true_eq]
          intro hxa
          exact hnd.1 (hxa ▸ hx))
      rw [hfil]
      simp
    · have hws : ws ∈ s := by
        rcases List.mem_cons.mp h with h1 | h2
        · exact absurd h1.symm ha
        · exact h2
      rw [setDiscard, List.filter_cons_of_pos (by simpa using ha)]
      have hrec := ih hnd.2 hws
      rw [setDiscard] at hrec
      simp only [List.length_cons]
      omega

theorem setDiscard_of_not_mem {s : List Conn} {ws : Conn} (h : ws ∉ s) :
    setDiscard s ws = s :=
  List.filter_eq_self.mpr (fun x hx => by
    simp only [bne_iff_ne, ne_eq, decide_eq_true_eq]
    intro hxw
    exact h (hxw ▸ hx))

/-! ### Delivery bookkeeping -/

theorem deliveredTo_append (w : Conn) (l1 l2 : List (Conn × String)) :
    deliveredTo w (l1 ++ l2) = deliveredTo w l1 ++ deliveredTo w l2 := by
  simp [deliveredTo, List.filter_append]

theorem deliveredTo_map_pair (w : Conn) (m : String) (ts : List Conn) :
    deliveredTo w (ts.map (fun v => (v, m))) =
      (ts.filter (fun v => v == w)).map (fun _ => m) := by
  induction ts with
  | nil => rfl
  | cons a ts ih =>
    cases h : (a == w) <;>
      simp_all [deliveredTo, List.filter_cons, h]

theorem filter_beq_of_nodup {l : List Conn} {w : Conn}
    (hnd : l.Nodup) (hw : w ∈ l) :
    l.filter (fun v => v == w) = [w] := by
  induction l with
  | nil => cases hw
  | cons a l ih =>
    rw [List.nodup_cons] at hnd
    by_cases ha : a = w
    · subst ha
      rw [List.filter_cons_of_pos (by simp)]
      have : l.filter (fun v => v == a) = [] :=
        List.filter_eq_nil.mpr (fun x hx => by
          simp only [beq_iff_eq]
          intro hxa
          exact hnd.1 (hxa ▸ hx))
      rw [this]
    · have hw2 : w ∈ l := by
        rcases List.mem_cons.mp hw with h1 | h2
        · exact absurd h1.symm ha
        · exact h2
      rw [List.filter_cons_of_neg (by simpa using ha)]
      exact ih hnd.2 hw2

theorem deliveredTo_broadcast (rooms : Registry) (code : String) (sender : Conn)
    (m : String) (fails : Conn → Bool) (w : Conn)
    (hnd : (members rooms code).Nodup) (hw : w ∈ members rooms code)
    (hne : w ≠ sender) (hf : fails w = false) :
    deliveredTo w (broadcast rooms code sender m fails) = [m] := by
  rw [broadcast_eq, deliveredTo_map_pair]
  have hwf : w ∈ (members rooms code).filter (fun v => v != sender && !fails v) :=
    List.mem_filter.mpr ⟨hw, by simp [hne, hf]⟩
  rw [filter_beq_of_nodup (hnd.filter _) hwf]
  rfl

theorem foldl_append_eq_join {α β : Type} (g : α → List β) (msgs : List α)
    (init : List β) :
    msgs.foldl (fun acc m => acc ++ g m) init = init ++ (msgs.map g).join := by
  induction msgs generalizing init with
  | nil => simp
  | cons m msgs ih => simp [ih]

theorem deliveredTo_join (w : Conn) (ls : List (List (Conn × String))) :
    deliveredTo w ls.join = (ls.map (deliveredTo w)).join := by
  induction ls with
  | nil => rfl
  | cons l ls ih => simp [deliveredTo_append, ih]

/-! ### Join idempotence -/

theorem updAt_updAt (c : String) (f g : List Conn → List Conn) (l : Registry) :
    updAt c g (updAt c f l) = updAt c (fun s => g (f s)) l := by
  unfold updAt
  rw [List.map_map]
  apply List.map_congr_left
  intro p hp
  by_cases h : p.1 = c <;> simp [Function.comp, h]

theorem join_idem (rooms : Registry) (code : String) (ws : Conn) :
    join (join rooms code ws) code ws = join rooms code ws := by
  conv_lhs => rw [join]
  rw [find_join_self]
  simp only [Option.isNone_some, Bool.false_eq_true, if_false]
  conv_lhs => rw [join]
  rw [updAt_updAt]
  have hfun : (fun s => setAdd (setAdd s ws) ws) = (fun s => setAdd s ws) := by
    funext s
    exact setAdd_setAdd s ws
  rw [hfun]
  rfl

/-! ### Registry invariants -/

theorem updAt_map_fst (c : String) (f : List Conn → List Conn) (rooms : Registry) :
    (updAt c f rooms).map Prod.fst = rooms.map Prod.fst := by
  unfold updAt
  rw [List.map_map]
  apply List.map_congr_left
  intro p hp
  by_cases h : p.1 = c <;> simp [h]

theorem join_map_fst_nodup {rooms : Registry} (hkeys : (rooms.map Prod.fst).Nodup)
    (code : String) (ws : Conn) :
    ((join rooms code ws).map Prod.fst).Nodup := by
  unfold join
  rw [updAt_map_fst]
  cases hf : Registry.find rooms code with
  | none =>
    have hcode : code ∉ rooms.map Prod.fst := (Registry.find_none_iff rooms code).mp hf
    simp [hf, List.nodup_append, hkeys, hcode]
  | some s => simpa [hf] using hkeys

theorem leave_eq (rooms : Registry) (code : String) (ws : Conn) :
    leave rooms code ws =
      if members (updAt code (fun s => setDiscard s ws) rooms) code = [] then
        (updAt code (fun s => setDiscard s ws) rooms).filter (fun p => p.1 != code)
      else updAt code (fun s => setDiscard s ws) rooms := rfl

theorem leave_map_fst_nodup {rooms : Registry} (hkeys : (rooms.map Prod.fst).Nodup)
    (code : String) (ws : Conn) :
    ((leave rooms code ws).map Prod.fst).Nodup := by
  have hupd : ((updAt code (fun s => setDiscard s ws) rooms).map Prod.fst).Nodup := by
    rw [updAt_map_fst]; exact hkeys
  rw [leave_eq]
  split
  · exact hupd.sublist ((List.filter_sublist _).map Prod.fst)
  · exact hupd

theorem join_no_empty {rooms : Registry} (hne : [] ∉ rooms.map Prod.snd)
    (code : String) (ws : Conn) :
    [] ∉ (join rooms code ws).map Prod.snd := by
  intro hmem
  rw [List.mem_map] at hmem
  obtain ⟨p, hp, hp2⟩ := hmem
  unfold join updAt at hp
  rw [List.mem_map] at hp
  obtain ⟨q, hq, hq2⟩ := hp
  by_cases hqc : q.1 = code
  · rw [if_pos hqc] at hq2
    rw [← hq2] at hp2
    exact setAdd_ne_nil q.2 ws hp2
  · rw [if_neg hqc] at hq2
    subst hq2
    have hqrooms : q ∈ rooms := by
      cases hf : Registry.find rooms code with
      | none =>
        rw [hf] at hq
        simp only [Option.isNone_none, if_true] at hq
        rcases List.mem_append.mp hq with h1 | h2
        · exact h1
        · simp only [List.mem_singleton] at h2
          exact absurd (congrArg Prod.fst h2) hqc
      | some s =>
        rw [hf] at hq
        simpa using hq
    exact hne (hp2 ▸ List.mem_map_of_mem Prod.snd hqrooms)

theorem leave_no_empty {rooms : Registry} (hkeys : (rooms.map Prod.fst).Nodup)
    (hne : [] ∉ rooms.map Prod.snd) (code : String) (ws : Conn) :
    [] ∉ (leave rooms code ws).map Prod.snd := by
  intro hmem
  rw [List.mem_map] at hmem
  obtain ⟨p, hp, hp2⟩ := hmem
  unfold leave at hp
  by_cases hpop : members (updAt code (fun s => setDiscard s ws) rooms) code = []
  · rw [if_pos hpop] at hp
    have hpin : p ∈ updAt code (fun s => setDiscard s ws) rooms := (List.mem_filter.mp hp).1
    have hpkey : (p.1 != code) = true := (List.mem_filter.mp hp).2
    unfold updAt at hpin
    rw [List.mem_map] at hpin
    obtain ⟨q, hq, hq2⟩ := hpin
    by_cases hqc : q.1 = code
    · rw [if_pos hqc] at hq2
      have hpc : p.1 = code := by rw [← hq2]; exact hqc
      simp [hpc] at hpkey
    · rw [if_neg hqc] at hq2
      subst hq2
      exact hne (hp2 ▸ List.mem_map_of_mem Prod.snd hq)
  · rw [if_neg hpop] at hp
    unfold updAt at hp
    rw [List.mem_map] at hp
    obtain ⟨q, hq, hq2⟩ := hp
    by_cases hqc : q.1 = code
    · rw [if_pos hqc] at hq2
      have hfind : Registry.find rooms q.1 = some q.2 := Registry.find_eq_of_mem hkeys hq
      rw [hqc] at hfind
      have hmem1 : members (updAt code (fun s => setDiscard s ws) rooms) code
          = setDiscard q.2 ws := by
        rw [members, Registry.find_updAt, if_pos rfl, hfind]
        rfl
      rw [← hq2] at hp2
      simp only at hp2
      exact hpop (hmem1.trans hp2)
    · rw [if_neg hqc] at hq2
      subst hq2
      exact hne (hp2 ▸ List.mem_map_of_mem Prod.snd hq)

theorem members_nodup_applyOp {rooms : Registry} {code : String}
    (h : (members rooms code).Nodup) (op : Op) :
    (members (applyOp rooms op) code).Nodup := by
  cases op with
  | join c w =>
    by_cases hc : c = code
    · subst hc
      simp only [applyOp]
      rw [members_join_self]
      exact setAdd_nodup h w
    · simp only [applyOp]
      rw [members_join_other hc]
      exact h
  | leave c w =>
    by_cases hc : c = code
    · subst hc
      simp only [applyOp]
      rw [members_leave_self]
      exact setDiscard_nodup h w
    · simp only [applyOp]
      rw [members_leave_other hc]
      exact h

/-! ### Counting joins and leaves -/

theorem effective_count (code : String) (ops : List Op) :
    ∀ rooms : Registry, (members rooms code).Nodup →
      effectiveOps code rooms ops = true →
      memberCount (applyOps rooms ops) code + leaveCount code ops =
        memberCount rooms code + joinCount code ops := by
  induction ops with
  | nil =>
    intro rooms _ _
    simp [applyOps, joinCount, leaveCount]
  | cons op ops ih =>
    intro rooms hnd heff
    cases op with
    | join c w =>
      rw [effectiveOps, Bool.and_eq_true] at heff
      obtain ⟨h1, h2⟩ := heff
      have hstep := ih (applyOp rooms (Op.join c w)) (members_nodup_applyOp hnd _) h2
      simp only [applyOps, List.foldl_cons] at hstep ⊢
      by_cases hc : c = code
      · subst hc
        have hw : w ∉ members rooms c := by simpa using h1
        have hmc : memberCount (applyOp rooms (Op.join c w)) c = memberCount rooms c + 1 := by
          simp only [applyOp, memberCount]
          rw [members_join_self, setAdd_length_of_not_mem hw]
        simp only [joinCount, leaveCount] at hstep
        simp [joinCount, leaveCount, List.filter_cons, isJoinOn, isLeaveOn]
        omega
      · have hmc : memberCount (applyOp rooms (Op.join c w)) code = memberCount rooms code := by
          simp only [applyOp, memberCount]
          rw [members_join_other hc]
        simp only [joinCount, leaveCount] at hstep
        simp [joinCount, leaveCount, List.filter_cons, isJoinOn, isLeaveOn, hc]
        omega
    | leave c w =>
      rw [effectiveOps, Bool.and_eq_true] at heff
      obtain ⟨h1, h2⟩ := heff
      have hstep := ih (applyOp rooms (Op.leave c w)) (members_nodup_applyOp hnd _) h2
      simp only [applyOps, List.foldl_cons] at hstep ⊢
      by_cases hc : c = code
      · subst hc
        have hw : w ∈ members rooms c := by simpa using h1
        have hmc : memberCount (applyOp rooms (Op.leave c w)) c + 1 = memberCount rooms c := by
          simp only [applyOp, memberCount]
          rw [members_leave_self]
          exact setDiscard_length_of_mem hnd hw
        simp only [joinCount, leaveCount] at hstep
        simp [joinCount, leaveCount, List.filter_cons, isJoinOn, isLeaveOn]
        omega
      · have hmc : memberCount (applyOp rooms (Op.leave c w)) code = memberCount rooms code := by
          simp only [applyOp, memberCount]
          rw [members_leave_other hc]
        simp only [joinCount, leaveCount] at hstep
        simp [joinCount, leaveCount, List.filter_cons, isJoinOn, isLeaveOn, hc]
        omega

/-! ### Claim theorems -/

/-- C1: for every room and message received from a member connection, the
broadcast (with no delivery failures) sends the payload unmodified to every
other current member exactly once — the deliveries are precisely the
non-sender members in order, each paired with the verbatim payload, with no
duplicate recipient — and never back to the sending connection itself. -/
theorem broadcast_delivers_to_others_exactly_once
    (rooms : Registry) (code : String) (sender : Conn) (data : String)
    (hnd : (members rooms code).Nodup) :
    broadcast rooms code sender data (fun _ => false) =
      ((members rooms code).filter (fun w => w != sender)).map (fun w => (w, data)) ∧
    ((broadcast rooms code sender data (fun _ => false)).map Prod.fst).Nodup := by
  have heq : broadcast rooms code sender data (fun _ => false) =
      ((members rooms code).filter (fun w => w != sender)).map (fun w => (w, data)) := by
    rw [broadcast_eq]
    congr 1
    apply List.filter_congr
    intro w hw
    simp
  refine ⟨heq, ?_⟩
  rw [heq, List.map_map]
  have hcomp : (Prod.fst ∘ fun w => (w, data)) = (id : Conn → Conn) := rfl
  rw [hcomp, List.map_id]
  exact hnd.filter _

theorem broadcast_delivers_to_others_exactly_once_witness :
    (members [("R1", [1, 2, 3])] "R1").Nodup ∧
    (broadcast [("R1", [1, 2, 3])] "R1" 1 "x" (fun _ => false) =
      ((members [("R1", [1, 2, 3])] "R1").filter (fun w => w != 1)).map (fun w => (w, "x")) ∧
    ((broadcast [("R1", [1, 2, 3])] "R1" 1 "x" (fun _ => false)).map Prod.fst).Nodup) :=
  ⟨by decide,
    broadcast_delivers_to_others_exactly_once [("R1", [1, 2, 3])] "R1" 1 "x" (by decide)⟩

/-- C2: whether the receive loop ends by peer close (`WebSocketDisconnect`) or
by any other read error, the `finally` block removes the connection from its
room's membership before the handler finishes — no membership leak. -/
theorem signaling_ws_removes_connection (rooms0 : Registry) (code : String) (ws : Conn)
    (msgs : List String) (term : TermKind) (fails : Conn → Bool) :
    ws ∉ members (signaling_ws rooms0 code ws msgs term fails).1 code := by
  show ws ∉ members (leave (join rooms0 code ws) code ws) code
  rw [members_leave_self]
  exact not_mem_setDiscard _ _

/-- C3: during one broadcast a delivery failure to any recipient is swallowed:
the deliveries are exactly the non-failing non-sender members (so a failing
recipient does not abort delivery to the rest), and the exception escaping the
handler does not depend on which sends failed, so no send error reaches the
sender's receive loop. -/
theorem broadcast_failure_isolated (rooms : Registry) (code : String) (sender : Conn)
    (data : String) (fails : Conn → Bool) (rooms0 : Registry) (ws : Conn)
    (msgs : List String) (term : TermKind) :
    broadcast rooms code sender data fails =
      ((members rooms code).filter (fun w => w != sender && !fails w)).map
        (fun w => (w, data)) ∧
    (signaling_ws rooms0 code ws msgs term fails).2.2 =
      (signaling_ws rooms0 code ws msgs term (fun _ => false)).2.2 :=
  ⟨broadcast_eq rooms code sender data fails, rfl⟩

/-- C4: after the last member of a room leaves, the room's entry is deleted
from the registry entirely (`roomExists` is false); leaving with a connection
(or room) that is absent is a no-op on the registry. -/
theorem leave_deletes_empty_room_and_absent_noop
    (roomsA roomsB : Registry) (codeA codeB : String) (wsA wsB : Conn)
    (hlast : members roomsA codeA = [wsA])
    (hkeys : (roomsB.map Prod.fst).Nodup)
    (hne : [] ∉ roomsB.map Prod.snd)
    (habs : wsB ∉ members roomsB codeB) :
    roomExists (leave roomsA codeA wsA) codeA = false ∧
    leave roomsB codeB wsB = roomsB := by
  constructor
  · have hfindA : Registry.find roomsA codeA = some [wsA] := by
      rw [members] at hlast
      cases hf : Registry.find roomsA codeA with
      | none => rw [hf] at hlast; cases hlast
      | some s => rw [hf] at hlast; simp only [Option.getD_some] at hlast; rw [hlast]
    have hpop : members (updAt codeA (fun s => setDiscard s wsA) roomsA) codeA = [] := by
      rw [members, Registry.find_updAt, if_pos rfl, hfindA]
      simp [setDiscard]
    rw [leave_eq, if_pos hpop, roomExists, Registry.find_filter_ne, if_pos rfl]
    rfl
  · have hupd : updAt codeB (fun s => setDiscard s wsB) roomsB = roomsB := by
      unfold updAt
      have hfix : ∀ p ∈ roomsB,
          (if p.1 = codeB then (p.1, setDiscard p.2 wsB) else p) = p := by
        intro p hp
        by_cases hpc : p.1 = codeB
        · rw [if_pos hpc]
          have hfind : Registry.find roomsB p.1 = some p.2 :=
            Registry.find_eq_of_mem hkeys hp
          rw [hpc] at hfind
          have hm : members roomsB codeB = p.2 := by rw [members, hfind]; rfl
          have hw : wsB ∉ p.2 := hm ▸ habs
          rw [setDiscard_of_not_mem hw]
        · rw [if_neg hpc]
      calc roomsB.map (fun p => if p.1 = codeB then (p.1, setDiscard p.2 wsB) else p)
          = roomsB.map id := List.map_congr_left hfix
        _ = roomsB := List.map_id roomsB
    rw [leave_eq, hupd]
    cases hf : Registry.find roomsB codeB with
    | none =>
      have hmem0 : members roomsB codeB = [] := by rw [members, hf]; rfl
      rw [if_pos hmem0]
      apply List.filter_eq_self.mpr
      intro p hp
      have hkey : codeB ∉ roomsB.map Prod.fst := (Registry.find_none_iff roomsB codeB).mp hf
      simp only [bne_iff_ne, ne_eq, decide_eq_true_eq]
      intro hpc
      exact hkey (hpc ▸ List.mem_map_of_mem Prod.fst hp)
    | some s =>
      have hsne : s ≠ [] := by
        intro hnil
        exact hne (hnil ▸ List.mem_map_of_mem Prod.snd (Registry.find_mem hf))
      have hmem0 : members roomsB codeB = s := by rw [members, hf]; rfl
      rw [if_neg (by rw [hmem0]; exact hsne)]

theorem leave_deletes_empty_room_and_absent_noop_witness :
    members [("R", [5])] "R" = [5] ∧
    ((([("S", [1, 2])] : Registry).map Prod.fst).Nodup) ∧
    ([] ∉ ([("S", [1, 2])] : Registry).map Prod.snd) ∧
    (9 ∉ members [("S", [1, 2])] "S") ∧
    (roomExists (leave [("R", [5])] "R" 5) "R" = false ∧
      leave [("S", [1, 2])] "S" 9 = [("S", [1, 2])]) :=
  ⟨by decide, by decide, by decide, by decide,
    leave_deletes_empty_room_and_absent_noop [("R", [5])] [("S", [1, 2])] "R" "S" 5 9
      (by decide) (by decide) (by decide) (by decide)⟩

/-- C5: joining adds the connection to the room's membership set, creating the
set if the room id is absent, and is idempotent: after the join the connection
is a member with exactly one entry, and joining again changes nothing. -/
theorem join_adds_and_idempotent (rooms : Registry) (code : String) (ws : Conn)
    (hnd : (members rooms code).Nodup) :
    ws ∈ members (join rooms code ws) code ∧
    (members (join rooms code ws) code).count ws = 1 ∧
    join (join rooms code ws) code ws = join rooms code ws := by
  refine ⟨?_, ?_, join_idem rooms code ws⟩
  · rw [members_join_self]
    exact mem_setAdd _ _
  · rw [members_join_self]
    unfold setAdd
    by_cases h : ws ∈ members rooms code
    · rw [if_pos h]
      exact List.count_eq_one_of_mem hnd h
    · rw [if_neg h]
      rw [List.count_append, List.count_eq_zero_of_not_mem h]
      simp

theorem join_adds_and_idempotent_witness :
    (members [] "R" ).Nodup ∧
    (0 ∈ members (join [] "R" 0) "R" ∧
      (members (join [] "R" 0) "R").count 0 = 1 ∧
      join (join [] "R" 0) "R" 0 = join [] "R" 0) :=
  ⟨by decide, join_adds_and_idempotent [] "R" 0 (by decide)⟩

/-- C6: broadcasts are confined to the sender's room: a connection that is not
a member of room `r1` never appears as a delivery target of a broadcast in
`r1`, whatever the sender, the payload and the failing recipients. -/
theorem broadcast_confined_to_room (rooms : Registry) (r1 : String) (sender : Conn)
    (data : String) (fails : Conn → Bool) (ws : Conn)
    (hnot : ws ∉ members rooms r1) :
    (broadcast rooms r1 sender data fails).all (fun d => d.1 != ws) = true := by
  rw [broadcast_eq, List.all_eq_true]
  intro d hd
  rw [List.mem_map] at hd
  obtain ⟨w, hw, hwd⟩ := hd
  have hwm : w ∈ members rooms r1 := (List.mem_filter.mp hw).1
  have hneq : w ≠ ws := fun h => hnot (h ▸ hwm)
  rw [← hwd]
  simpa using hneq

theorem broadcast_confined_to_room_witness :
    (3 ∉ members [("R1", [1, 2]), ("R2", [3])] "R1") ∧
    (broadcast [("R1", [1, 2]), ("R2", [3])] "R1" 1 "x" (fun _ => false)).all
      (fun d => d.1 != 3) = true :=
  ⟨by decide,
    broadcast_confined_to_room [("R1", [1, 2]), ("R2", [3])] "R1" 1 "x" (fun _ => false) 3
      (by decide)⟩

/-- C7: per-sender order is preserved: a recipient that is a member of the
sender's room (other than the sender, with its sends succeeding) receives the
sender's messages exactly in the order they were sent. -/
theorem sender_order_preserved (rooms0 : Registry) (code : String) (ws : Conn)
    (msgs : List String) (term : TermKind) (fails : Conn → Bool) (w : Conn)
    (hnd : (members (join rooms0 code ws) code).Nodup)
    (hw : w ∈ members (join rooms0 code ws) code)
    (hne : w ≠ ws) (hf : fails w = false) :
    deliveredTo w (signaling_ws rooms0 code ws msgs term fails).2.1 = msgs := by
  show deliveredTo w
      (msgs.foldl (fun acc m => acc ++ broadcast (join rooms0 code ws) code ws m fails) [])
    = msgs
  rw [foldl_append_eq_join]
  simp only [List.nil_append]
  rw [deliveredTo_join, List.map_map]
  have hone : (deliveredTo w ∘ fun m => broadcast (join rooms0 code ws) code ws m fails)
      = fun m => [m] := by
    funext m
    exact deliveredTo_broadcast _ _ _ _ _ _ hnd hw hne hf
  rw [hone]
  induction msgs with
  | nil => rfl
  | cons m msgs ih => simp [ih]

theorem sender_order_preserved_witness :
    (members (join [("R", [7])] "R" 0) "R").Nodup ∧
    7 ∈ members (join [("R", [7])] "R" 0) "R" ∧
    (7 : Conn) ≠ 0 ∧
    (fun _ : Conn => false) 7 = false ∧
    deliveredTo 7
      (signaling_ws [("R", [7])] "R" 0 ["m1", "m2", "m3"] TermKind.disconnect
        (fun _ => false)).2.1 = ["m1", "m2", "m3"] :=
  ⟨by decide, by decide, by decide, rfl,
    sender_order_preserved [("R", [7])] "R" 0 ["m1", "m2", "m3"] TermKind.disconnect
      (fun _ => false) 7 (by decide) (by decide) (by decide) rfl⟩

/-- C8, counterexample to the claim as stated: joining the same connection
twice leaves a member count of 1 while the number of joins minus the number of
leaves on the room is 2. -/
theorem joinleave_count_claim_false :
    ¬ (memberCount (applyOps [] [Op.join "R" 0, Op.join "R" 0]) "R" =
        joinCount "R" [Op.join "R" 0, Op.join "R" 0] -
          leaveCount "R" [Op.join "R" 0, Op.join "R" 0]) := by decide

/-- C8, amended: for sequences in which every join on the room adds a
connection not currently a member and every leave on the room removes a
current member, the final member count plus the number of leaves on the room
equals the initial member count plus the number of joins on the room; in
particular the leaves on the room never outnumber the joins plus the initial
count (the count never goes negative). -/
theorem effective_joinleave_count (rooms : Registry) (code : String) (ops : List Op)
    (hnd : (members rooms code).Nodup)
    (heff : effectiveOps code rooms ops = true) :
    memberCount (applyOps rooms ops) code + leaveCount code ops =
      memberCount rooms code + joinCount code ops ∧
    leaveCount code ops ≤ memberCount rooms code + joinCount code ops := by
  have h := effective_count code ops rooms hnd heff
  exact ⟨h, by omega⟩

theorem effective_joinleave_count_witness :
    (members [] "R").Nodup ∧
    effectiveOps "R" [] [Op.join "R" 1, Op.join "R" 2, Op.leave "R" 1] = true ∧
    (memberCount (applyOps [] [Op.join "R" 1, Op.join "R" 2, Op.leave "R" 1]) "R" +
        leaveCount "R" [Op.join "R" 1, Op.join "R" 2, Op.leave "R" 1] =
      memberCount [] "R" + joinCount "R" [Op.join "R" 1, Op.join "R" 2, Op.leave "R" 1] ∧
    leaveCount "R" [Op.join "R" 1, Op.join "R" 2, Op.leave "R" 1] ≤
      memberCount [] "R" + joinCount "R" [Op.join "R" 1, Op.join "R" 2, Op.leave "R" 1]) :=
  ⟨by decide, by decide,
    effective_joinleave_count [] "R" [Op.join "R" 1, Op.join "R" 2, Op.leave "R" 1]
      (by decide) (by decide)⟩

/-- C9: a complete join or leave step never leaves a room id bound to an empty
membership set (and keeps the registry's keys duplicate-free), and broadcasting
in a room id absent from the registry is a safe no-op delivering nothing. -/
theorem registry_no_empty_rooms_and_safe_broadcast
    (rooms : Registry) (c : String) (w : Conn)
    (rooms2 : Registry) (code2 : String) (sender : Conn) (data : String)
    (fails : Conn → Bool)
    (hkeys : (rooms.map Prod.fst).Nodup)
    (hne : [] ∉ rooms.map Prod.snd)
    (habs : roomExists rooms2 code2 = false) :
    [] ∉ (join rooms c w).map Prod.snd ∧
    [] ∉ (leave rooms c w).map Prod.snd ∧
    ((join rooms c w).map Prod.fst).Nodup ∧
    ((leave rooms c w).map Prod.fst).Nodup ∧
    broadcast rooms2 code2 sender data fails = [] := by
  refine ⟨join_no_empty hne c w, leave_no_empty hkeys hne c w,
    join_map_fst_nodup hkeys c w, leave_map_fst_nodup hkeys c w, ?_⟩
  have hfind : Registry.find rooms2 code2 = none := by
    rw [roomExists] at habs
    cases hf : Registry.find rooms2 code2 with
    | none => rfl
    | some s => rw [hf] at habs; cases habs
  rw [broadcast_eq, members, hfind]
  rfl

theorem registry_no_empty_rooms_and_safe_broadcast_witness :
    (([("R", [1])] : Registry).map Prod.fst).Nodup ∧
    ([] ∉ ([("R", [1])] : Registry).map Prod.snd) ∧
    roomExists [] "Z" = false ∧
    ([] ∉ (join [("R", [1])] "R" 2).map Prod.snd ∧
      [] ∉ (leave [("R", [1])] "R" 2).map Prod.snd ∧
      ((join [("R", [1])] "R" 2).map Prod.fst).Nodup ∧
      ((leave [("R", [1])] "R" 2).map Prod.fst).Nodup ∧
      broadcast [] "Z" 1 "x" (fun _ => false) = []) :=
  ⟨by decide, by decide, by decide,
    registry_no_empty_rooms_and_safe_broadcast [("R", [1])] "R" 2 [] "Z" 1 "x"
      (fun _ => false) (by decide) (by decide) (by decide)⟩

/-- C10: `generate_meeting_code` always yields a string of exactly 8
characters, each an uppercase ASCII letter or a decimal digit, whatever the
random draws. -/
theorem generate_meeting_code_shape (r : Nat → Nat) :
    (generate_meeting_code r).length = 8 ∧
    (generate_meeting_code r).data.all
      (fun c => ('A' ≤ c && c ≤ 'Z') || ('0' ≤ c && c ≤ '9')) = true := by
  constructor
  · simp [generate_meeting_code, String.length]
  · rw [List.all_eq_true]
    intro c hc
    have hc2 : c ∈ (List.range 8).map
        (fun i => codeAlphabet.getD (r i % codeAlphabet.length) 'A') := hc
    rw [List.mem_map] at hc2
    obtain ⟨i, _, hi⟩ := hc2
    have hk : r i % codeAlphabet.length < codeAlphabet.length :=
      Nat.mod_lt _ (by decide)
    have hmem : codeAlphabet.getD (r i % codeAlphabet.length) 'A' ∈ codeAlphabet := by
      rw [List.getD_eq_getElem _ _ hk]
      exact List.getElem_mem hk
    have hall : codeAlphabet.all
        (fun ch => ('A' ≤ ch && ch ≤ 'Z') || ('0' ≤ ch && ch ≤ '9')) = true := by decide
    rw [← hi]
    exact List.all_eq_true.mp hall _ hmem
